import Mathlib

/-!
Verification of the photo-mosaic pipeline (`src/main.rs`).

The source is a single Rust file.  Its pure computational core is embedded
shallowly below:

* machine integers (`u32`, `u8`) are modelled as `Nat`; the places where the
  source's `u32` arithmetic can wrap (the channel-sum accumulator, the
  `width * height` pixel count, and the `size * ratio` products) carry an
  explicit `% 2^32`, and the `as u8` cast is `% 256`;
* operations that panic in Rust (division by zero) return `Option`/a `panic`
  result instead;
* the image type is abstract: a width, a height and a total pixel function,
  which is how the `image` crate collaborators (`GenericImageView`) are used
  by the code under verification.
-/

/-- Modulus of Rust's `u32` arithmetic. -/
def u32Mod : Nat := 4294967296

/-- An RGB triple, the `[u8; 3]` of `struct ProcessedPicture`.  Channels are
`Nat`s; theorems that need the `u8` range state `< 256` explicitly. -/
structure Rgb where
  r : Nat
  g : Nat
  b : Nat
deriving DecidableEq, Repr

/-- An RGBA pixel, the `Rgba<u8>` of the `image` crate. -/
structure Rgba where
  r : Nat
  g : Nat
  b : Nat
  a : Nat
deriving DecidableEq, Repr

/-- A decoded image: the narrow contract of the `image` crate collaborator
(`width`, `height`, per-pixel access).  The pixel function is total; all
claims operate in the regime where every access is in bounds. -/
structure ImageBuf where
  width : Nat
  height : Nat
  pix : Nat → Nat → Rgba

/-- `img.view x y w h` — the sub-image `GenericImageView::view(x, y, w, h)`
followed by `to_image()`: a `w × h` buffer whose pixel `(i, j)` is the parent's
pixel `(x+i, y+j)`. -/
def ImageBuf.view (img : ImageBuf) (x y w h : Nat) : ImageBuf :=
  ⟨w, h, fun i j => img.pix (x + i) (y + j)⟩

/-- The row-major pixel sequence traversed by `img.enumerate_pixels()`. -/
def pixelsList (img : ImageBuf) : List Rgba :=
  (List.range img.height).flatMap fun y =>
    (List.range img.width).map fun x => img.pix x y

/-- One channel's `color_sums[i] += u32::from(pixel.2[i])` accumulation:
a fold that wraps at `2^32` on every addition, as the source's `u32`
accumulator does in an optimized build. -/
def wrapSum (f : Rgba → Nat) (l : List Rgba) : Nat :=
  l.foldl (fun acc p => (acc + f p) % u32Mod) 0

/-- `compute_main_color` (src/main.rs:31-44): sum the three channels over all
pixels and divide each sum by `width * height`.  The division panics in Rust
when the (wrapped) pixel count is zero, hence the `Option`; the `as u8` cast
is `% 256`. -/
def compute_main_color (img : ImageBuf) : Option Rgb :=
  let d := img.width * img.height % u32Mod
  if d = 0 then none
  else
    some ⟨wrapSum (fun p => p.r) (pixelsList img) / d % 256,
          wrapSum (fun p => p.g) (pixelsList img) / d % 256,
          wrapSum (fun p => p.b) (pixelsList img) / d % 256⟩

/-- `compute_ratio` (src/main.rs:46-49): divide both dimensions by their gcd.
`num::Integer::gcd` on naturals is `Nat.gcd`; when both dimensions are zero
the gcd is zero and the Rust division panics, hence `none`. -/
def compute_ratio (w h : Nat) : Option (Nat × Nat) :=
  let g := Nat.gcd w h
  if g = 0 then none else some (w / g, h / g)

/-- `ratio_to_dim` (src/main.rs:51-58).  The source's branch condition is
`ratio.0 as f32 / ratio.1 as f32 > 1.0`; for components below `2^24` both
conversions to `f32` are exact and the correctly rounded quotient compares
to `1.0` exactly as the integers compare, so the condition is embedded as
`ratio.2 < ratio.1`.  The `size * ratio` products are `u32` multiplications
and wrap at `2^32`.  (The division's divisor is zero only for the ratio
`(0, 0)`, which `compute_ratio` can never produce.) -/
def ratio_to_dim (ratio : Nat × Nat) (size : Nat) : Nat × Nat :=
  if ratio.2 < ratio.1 then (size, size * ratio.2 % u32Mod / ratio.1)
  else (size * ratio.1 % u32Mod / ratio.2, size)

/-- `color_distance` (src/main.rs:149-155), first half: the accumulator `a`,
the sum of the squared per-channel differences computed in `i32` (no overflow
for `u8` channels, so plain `Int` arithmetic). -/
def color_distance_sq (c1 c2 : Rgb) : Nat :=
  (((c1.r : Int) - c2.r) ^ 2 + ((c1.g : Int) - c2.g) ^ 2
   + ((c1.b : Int) - c2.b) ^ 2).toNat

/-- `color_distance`, second half: `f64::from(a).sqrt() as u32`.  For every
`a` reachable from `u8` channels (`a ≤ 3 * 255^2`) the correctly rounded
`f64` square root truncated to an integer equals `Nat.sqrt a`: the distance
from `√a` to the nearest integer is at least `1 / (2 * 442)` when `a` is not
a perfect square, far above `f64` rounding error at this magnitude. -/
def color_distance (c1 c2 : Rgb) : Nat :=
  Nat.sqrt (color_distance_sq c1 c2)

/-- Evaluation helper: pin down a concrete truncated square root by squeezing
it between consecutive squares. -/
theorem color_distance_eq_of {c1 c2 : Rgb} (k : Nat)
    (h1 : k * k ≤ color_distance_sq c1 c2)
    (h2 : color_distance_sq c1 c2 < (k + 1) * (k + 1)) :
    color_distance c1 c2 = k :=
  (Nat.eq_sqrt.mpr ⟨h1, h2⟩).symm

/-- `struct ProcessedPicture` (src/main.rs:23-29), one catalogue entry. -/
structure ProcessedPicture where
  path : String
  color_rgb : Rgb
  ratio_width : Nat
  ratio_height : Nat
deriving DecidableEq, Repr

/-- The loop of `find_closest_pic_by_color` (src/main.rs:159-168): scan the
remaining pictures carrying the best `(entry, distance)` pair; return
immediately on a zero distance. -/
def find_closest_aux (color : Rgb) :
    List ProcessedPicture → ProcessedPicture → Nat → ProcessedPicture
  | [], best, _ => best
  | p :: rest, best, bestDist =>
    let dist := color_distance p.color_rgb color
    if dist = 0 then p
    else if dist < bestDist then find_closest_aux color rest p dist
    else find_closest_aux color rest best bestDist

/-- `find_closest_pic_by_color` (src/main.rs:157-170).  The source indexes
`pics[0]`, which panics on an empty slice, hence the `Option`. -/
def find_closest_pic_by_color (pics : List ProcessedPicture) (color : Rgb) :
    Option ProcessedPicture :=
  match pics with
  | [] => none
  | p :: rest =>
    some (find_closest_aux color rest p (color_distance p.color_rgb color))

/-- Result of running the chunk walk of `compute_main_color_by_chunk` with a
given amount of fuel: a finished color list, a Rust panic (here: the division
by zero inside `compute_main_color` on a zero-area chunk), or fuel
exhaustion — the fuel-indexed stand-in for a non-terminating loop. -/
inductive WalkResult where
  | ok : List Rgb → WalkResult
  | panic : WalkResult
  | fuelOut : WalkResult
deriving DecidableEq, Repr

/-- `res.push(...)` seen from the head of the recursion: prepend a color to a
walk result, keeping `panic` and `fuelOut` absorbing. -/
def WalkResult.cons (c : Rgb) : WalkResult → WalkResult
  | .ok l => .ok (c :: l)
  | .panic => .panic
  | .fuelOut => .fuelOut

/-- The two nested `while` loops of `compute_main_color_by_chunk`
(src/main.rs:172-186), flattened into one step function on the loop state
`(x, y)`: while `y + chunk_h ≤ h`, scan `x` by steps of `chunk_w` while
`x + chunk_w ≤ w`, emitting the chunk color at `(x, y)`; when the inner guard
fails, reset `x` to `0` and advance `y` (the outer guard does not change
during a row, so this flattening is exact).  The guard additions
`x + chunk_w` and `y + chunk_h` and the matching increments are `u32`
additions and wrap at `2^32` (release semantics; a checked build panics at
the overflow instead).  Theorems that assert completion therefore carry
`w + chunk_w < 2^32` and `h + chunk_h < 2^32`: inside that regime no
addition wraps and every emitted view lies inside the image, so the total
pixel function is never consulted out of bounds. -/
def chunk_walk (img : ImageBuf) (cw ch : Nat) : Nat → Nat → Nat → WalkResult
  | 0, _, _ => .fuelOut
  | fuel + 1, x, y =>
    if (y + ch) % u32Mod ≤ img.height then
      if (x + cw) % u32Mod ≤ img.width then
        match compute_main_color (img.view x y cw ch) with
        | none => .panic
        | some c => (chunk_walk img cw ch fuel ((x + cw) % u32Mod) y).cons c
      else chunk_walk img cw ch fuel 0 ((y + ch) % u32Mod)
    else .ok []

/-- `compute_main_color_by_chunk` (src/main.rs:172-186): the walk started at
the top-left corner. -/
def compute_main_color_by_chunk (img : ImageBuf) (cw ch fuel : Nat) : WalkResult :=
  chunk_walk img cw ch fuel 0 0

/-- The average color of the chunk with origin `(x, y)`, as a total function:
`compute_main_color` on the chunk view, with the (never reached when the
chunk area is positive and below `2^32`) zero-divisor case mapped to `0`. -/
def chunk_color (img : ImageBuf) (x y cw ch : Nat) : Rgb :=
  let v := img.view x y cw ch
  let d := cw * ch % u32Mod
  ⟨wrapSum (fun p => p.r) (pixelsList v) / d % 256,
   wrapSum (fun p => p.g) (pixelsList v) / d % 256,
   wrapSum (fun p => p.b) (pixelsList v) / d % 256⟩

/-- The row-major grid of chunk colors that a completed walk returns:
`floor (h / ch)` rows of `floor (w / cw)` chunks, the chunk of row `ry` and
column `cx` having origin `(cx * cw, ry * ch)`. -/
def chunk_grid (img : ImageBuf) (cw ch : Nat) : List Rgb :=
  (List.range (img.height / ch)).flatMap fun ry =>
    (List.range (img.width / cw)).map fun cx =>
      chunk_color img (cx * cw) (ry * ch) cw ch

/-- The fuel that lets the walk finish when both chunk dimensions are
positive: one step per emitted chunk, one per row change, one to fail the
outer guard. -/
def chunk_fuel (img : ImageBuf) (cw ch : Nat) : Nat :=
  img.height / ch * (img.width / cw + 1) + 1

/-- The output canvas allocation of `create_mosaic` (src/main.rs:199-202):
`model_w / chunk_w * thumb_w` by `model_h / chunk_h * thumb_h`, in `u32`
arithmetic.  A zero chunk dimension makes the Rust division panic, hence the
`Option`. -/
def mosaic_canvas_dims (mw mh : Nat) (chunkDim thumbDim : Nat × Nat) :
    Option (Nat × Nat) :=
  if chunkDim.1 = 0 ∨ chunkDim.2 = 0 then none
  else some (mw / chunkDim.1 * thumbDim.1 % u32Mod,
             mh / chunkDim.2 * thumbDim.2 % u32Mod)

/-- One candidate file as the Picture Preprocessor sees it: its base name,
the outcome of the external `image::open` decode (`none` = decode error), and
whether the external `thumb.save` succeeds.  The thumbnailing itself
(`image_square_view`, `imageops::thumbnail`, `imageops::contrast`) only feeds
the saved thumbnail file and affects no catalogue entry field. -/
structure FileEntry where
  name : String
  decoded : Option ImageBuf
  saveOk : Bool

/-- The catalogue entry a single file contributes, if any: skipped (`none`)
on a decode failure or a failed thumbnail save, otherwise the
`ProcessedPicture` built at src/main.rs:111-116 — the base name, the main
color of the *full original* image, and its reduced ratio. -/
def catalogue_entry (f : FileEntry) : Option ProcessedPicture :=
  match f.decoded with
  | none => none
  | some img =>
    if f.saveOk then
      match compute_ratio img.width img.height, compute_main_color img with
      | some ratio, some color => some ⟨f.name, color, ratio.1, ratio.2⟩
      | _, _ => none
    else none

/-- `process_pictures` (src/main.rs:76-126), its per-file loop: decode
failures and save failures `continue`; a zero-dimension decoded image panics
(`none` overall) — first in `compute_ratio` if both dimensions are zero,
else in `compute_main_color`'s division — mirroring the source order
(ratio at line 96, save check at line 106, color at line 113). -/
def process_pictures : List FileEntry → Option (List ProcessedPicture)
  | [] => some []
  | f :: rest =>
    match f.decoded with
    | none => process_pictures rest
    | some img =>
      match compute_ratio img.width img.height with
      | none => none
      | some ratio =>
        if f.saveOk then
          match compute_main_color img with
          | none => none
          | some color =>
            (process_pictures rest).map fun l =>
              ⟨f.name, color, ratio.1, ratio.2⟩ :: l
        else process_pictures rest

/-- What `cmd_create` (src/main.rs:228-248) does after loading the catalogue
and decoding the model, up to the point where the mosaic itself is built:
panic (model with both dimensions zero), exit with a code and a message on
the error stream, or proceed into `create_mosaic` with the ratio-filtered
catalogue. -/
inductive CmdCreateOutcome where
  | panicked : CmdCreateOutcome
  | exit : Nat → String → CmdCreateOutcome
  | proceed : List ProcessedPicture → CmdCreateOutcome
deriving DecidableEq

/-- The catalogue filter of `cmd_create` (src/main.rs:234-238): keep entries
whose ratio equals the model's reduced ratio, by exact integer comparison. -/
def filter_by_ratio (pictures : List ProcessedPicture) (ratio : Nat × Nat) :
    List ProcessedPicture :=
  pictures.filter fun p =>
    p.ratio_width = ratio.1 ∧ p.ratio_height = ratio.2

/-- `cmd_create` (src/main.rs:228-248) from the decoded model's dimensions:
compute the model ratio, filter the catalogue, and either exit with code `1`
and the diagnostic naming the ratio (src/main.rs:240-243) or proceed. -/
def cmd_create (pictures : List ProcessedPicture) (mw mh : Nat) :
    CmdCreateOutcome :=
  match compute_ratio mw mh with
  | none => .panicked
  | some ratio =>
    let pics := filter_by_ratio pictures ratio
    if pics.isEmpty then
      .exit 1 ("No processed pictures found with the same ratio ("
               ++ toString ratio.1 ++ "/" ++ toString ratio.2 ++ ")")
    else .proceed pics

/-! ### Supporting lemmas -/

theorem foldl_wrap_add (f : Rgba → Nat) (l : List Rgba) (acc : Nat)
    (hacc : acc < u32Mod) :
    l.foldl (fun a p => (a + f p) % u32Mod) acc
      = (acc + (l.map f).sum) % u32Mod := by
  induction l generalizing acc with
  | nil => simp [Nat.mod_eq_of_lt hacc]
  | cons p rest ih =>
      rw [List.foldl_cons, ih _ (Nat.mod_lt _ (by norm_num [u32Mod])),
        List.map_cons, List.sum_cons, Nat.mod_add_mod]
      ring_nf

theorem wrapSum_eq (f : Rgba → Nat) (l : List Rgba) :
    wrapSum f l = (l.map f).sum % u32Mod := by
  simpa using foldl_wrap_add f l 0 (by norm_num [u32Mod])

theorem length_flatMap_const {α β : Type} (g : α → List β) (l : List α)
    (w : Nat) (h : ∀ a, (g a).length = w) :
    (l.flatMap g).length = l.length * w := by
  induction l with
  | nil => simp
  | cons a rest ih =>
      simp [List.flatMap_cons, ih, h a, Nat.succ_mul, Nat.add_comm]

theorem pixelsList_length (img : ImageBuf) :
    (pixelsList img).length = img.width * img.height := by
  rw [pixelsList, length_flatMap_const _ _ img.width (by intro a; simp),
    List.length_range, Nat.mul_comm]

theorem pixelsList_mem {img : ImageBuf} {p : Rgba} (h : p ∈ pixelsList img) :
    ∃ x y, x < img.width ∧ y < img.height ∧ p = img.pix x y := by
  simp only [pixelsList, List.mem_flatMap, List.mem_map, List.mem_range] at h
  obtain ⟨y, hy, x, hx, rfl⟩ := h
  exact ⟨x, y, hx, hy, rfl⟩

theorem sum_map_le_of_bound (f : Rgba → Nat) (l : List Rgba) (n : Nat)
    (h : ∀ p ∈ l, f p ≤ n) : (l.map f).sum ≤ n * l.length := by
  have := List.sum_le_card_nsmul (l.map f) n (by
    intro x hx
    obtain ⟨p, hp, rfl⟩ := List.mem_map.mp hx
    exact h p hp)
  simpa [Nat.mul_comm, smul_eq_mul] using this

theorem channel_avg (f : Rgba → Nat) (img : ImageBuf)
    (hpos : 0 < img.width * img.height)
    (hlt : 255 * (img.width * img.height) < u32Mod)
    (hb : ∀ p ∈ pixelsList img, f p ≤ 255) :
    wrapSum f (pixelsList img) / (img.width * img.height % u32Mod) % 256
      = ((pixelsList img).map f).sum / (img.width * img.height) := by
  have hn : img.width * img.height < u32Mod :=
    lt_of_le_of_lt (Nat.le_mul_of_pos_left _ (by norm_num)) hlt
  have hsum : ((pixelsList img).map f).sum ≤ 255 * (img.width * img.height) := by
    have := sum_map_le_of_bound f (pixelsList img) 255 hb
    rwa [pixelsList_length] at this
  have hq : ((pixelsList img).map f).sum / (img.width * img.height) ≤ 255 := by
    calc ((pixelsList img).map f).sum / (img.width * img.height)
        ≤ 255 * (img.width * img.height) / (img.width * img.height) :=
          Nat.div_le_div_right hsum
      _ = 255 := Nat.mul_div_cancel 255 hpos
  rw [wrapSum_eq, Nat.mod_eq_of_lt hn,
    Nat.mod_eq_of_lt (lt_of_le_of_lt hsum hlt),
    Nat.mod_eq_of_lt (lt_of_le_of_lt hq (by norm_num))]

/-- In the wrap-free regime (positive pixel count, channel sums below `2^32`)
`compute_main_color` is exactly the claimed per-channel truncated average. -/
theorem compute_main_color_eq (img : ImageBuf)
    (hpos : 0 < img.width * img.height)
    (hlt : 255 * (img.width * img.height) < u32Mod)
    (hb : ∀ p ∈ pixelsList img, p.r ≤ 255 ∧ p.g ≤ 255 ∧ p.b ≤ 255) :
    compute_main_color img
      = some ⟨((pixelsList img).map Rgba.r).sum / (img.width * img.height),
              ((pixelsList img).map Rgba.g).sum / (img.width * img.height),
              ((pixelsList img).map Rgba.b).sum / (img.width * img.height)⟩ := by
  have hn : img.width * img.height < u32Mod :=
    lt_of_le_of_lt (Nat.le_mul_of_pos_left _ (by norm_num)) hlt
  have hd : ¬ img.width * img.height % u32Mod = 0 := by
    rw [Nat.mod_eq_of_lt hn]; omega
  simp only [compute_main_color, if_neg hd, Option.some.injEq]
  refine Rgb.mk.injEq _ _ _ _ _ _ ▸ ⟨?_, ?_, ?_⟩
  · exact channel_avg _ img hpos hlt fun p hp => (hb p hp).1
  · exact channel_avg _ img hpos hlt fun p hp => (hb p hp).2.1
  · exact channel_avg _ img hpos hlt fun p hp => (hb p hp).2.2

/-- Unfolding of `compute_main_color` when the `u32` pixel count is
nonzero. -/
theorem compute_main_color_def (img : ImageBuf)
    (hd : img.width * img.height % u32Mod ≠ 0) :
    compute_main_color img
      = some ⟨wrapSum (fun p => p.r) (pixelsList img)
                / (img.width * img.height % u32Mod) % 256,
              wrapSum (fun p => p.g) (pixelsList img)
                / (img.width * img.height % u32Mod) % 256,
              wrapSum (fun p => p.b) (pixelsList img)
                / (img.width * img.height % u32Mod) % 256⟩ := by
  simp only [compute_main_color, if_neg hd]

/-- On a chunk view whose `u32` pixel count is nonzero, `compute_main_color`
returns `chunk_color`. -/
theorem compute_main_color_view (img : ImageBuf) (x y cw ch : Nat)
    (hd : cw * ch % u32Mod ≠ 0) :
    compute_main_color (img.view x y cw ch)
      = some (chunk_color img x y cw ch) := by
  simp only [compute_main_color, chunk_color, ImageBuf.view, if_neg hd]

/-- Prepend a whole row of colors to a walk result. -/
def WalkResult.consList (cs : List Rgb) (r : WalkResult) : WalkResult :=
  cs.foldr WalkResult.cons r

theorem WalkResult.consList_ok (cs l : List Rgb) :
    WalkResult.consList cs (.ok l) = .ok (cs ++ l) := by
  induction cs with
  | nil => rfl
  | cons c rest ih =>
      rw [WalkResult.consList, List.foldr_cons,
        show List.foldr WalkResult.cons (WalkResult.ok l) rest
          = WalkResult.ok (rest ++ l) from ih]
      rfl

/-- One row of the chunk walk: starting at `(x, y)` with `n` full chunks left
in the row, the walk emits those `n` chunk colors and continues at the next
row with `n + 1` fuel consumed.  The `u32` range bounds on `w + cw` and
`h + ch` keep every guard addition below `2^32`, so no wrap occurs. -/
theorem chunk_walk_row (img : ImageBuf) (cw ch : Nat)
    (hd : cw * ch % u32Mod ≠ 0) (hwcw : img.width + cw < u32Mod)
    (hhch : img.height + ch < u32Mod) (y : Nat) (hy : y + ch ≤ img.height) :
    ∀ n fuel x, x + n * cw ≤ img.width → img.width < x + n * cw + cw →
    chunk_walk img cw ch (n + 1 + fuel) x y
      = WalkResult.consList
          ((List.range n).map fun i => chunk_color img (x + i * cw) y cw ch)
          (chunk_walk img cw ch fuel 0 (y + ch)) := by
  have hymod : (y + ch) % u32Mod = y + ch := Nat.mod_eq_of_lt (by omega)
  intro n
  induction n with
  | zero =>
      intro fuel x h1 h2
      have hxle : x ≤ img.width := by simpa using h1
      have hxmod : (x + cw) % u32Mod = x + cw := Nat.mod_eq_of_lt (by omega)
      rw [show 0 + 1 + fuel = fuel + 1 by ring, chunk_walk, hymod, if_pos hy,
        hxmod, if_neg (by simp at h2; omega)]
      simp [WalkResult.consList]
  | succ n ih =>
      intro fuel x h1 h2
      have hcn : cw ≤ (n + 1) * cw := Nat.le_mul_of_pos_left cw (Nat.succ_pos n)
      have hx : x + cw ≤ img.width := le_trans (Nat.add_le_add_left hcn x) h1
      have hxmod : (x + cw) % u32Mod = x + cw := Nat.mod_eq_of_lt (by omega)
      rw [show n + 1 + 1 + fuel = (n + 1 + fuel) + 1 by ring, chunk_walk,
        hymod, if_pos hy, hxmod, if_pos hx,
        compute_main_color_view img x y cw ch hd,
        ih fuel (x + cw)
          (by rw [show x + cw + n * cw = x + (n + 1) * cw by ring]; exact h1)
          (by rw [show x + cw + n * cw + cw = x + (n + 1) * cw + cw by ring]
              exact h2)]
      have hmap : (List.range (n + 1)).map
            (fun i => chunk_color img (x + i * cw) y cw ch)
          = chunk_color img x y cw ch
            :: (List.range n).map
                 (fun i => chunk_color img (x + cw + i * cw) y cw ch) := by
        rw [List.range_succ_eq_map, List.map_cons, List.map_map]
        refine congrArg₂ _ (by rw [Nat.zero_mul, Nat.add_zero]) ?_
        refine List.map_congr_left fun i _ => ?_
        simp only [Function.comp_apply]
        rw [show x + (i + 1) * cw = x + cw + i * cw by ring]
      rw [hmap]
      rfl

/-- The full chunk walk: from row `y` with `m` full rows remaining, the walk
finishes with fuel `m * (cols + 1) + 1` and returns the row-major grid of
chunk colors. -/
theorem chunk_walk_grid (img : ImageBuf) (cw ch : Nat) (hcw : 0 < cw)
    (hd : cw * ch % u32Mod ≠ 0) (hwcw : img.width + cw < u32Mod)
    (hhch : img.height + ch < u32Mod) :
    ∀ m y, y + m * ch ≤ img.height → img.height < y + m * ch + ch →
    chunk_walk img cw ch (m * (img.width / cw + 1) + 1) 0 y
      = .ok ((List.range m).flatMap fun ry =>
          (List.range (img.width / cw)).map fun cx =>
            chunk_color img (cx * cw) (y + ry * ch) cw ch) := by
  intro m
  induction m with
  | zero =>
      intro y h1 h2
      have hyle : y ≤ img.height := by simpa using h1
      have hymod : (y + ch) % u32Mod = y + ch := Nat.mod_eq_of_lt (by omega)
      rw [chunk_walk, hymod, if_neg (by simp at h2; omega)]
      simp
  | succ m ih =>
      intro y h1 h2
      have hch : ch ≤ (m + 1) * ch := Nat.le_mul_of_pos_left ch (Nat.succ_pos m)
      have hy : y + ch ≤ img.height := le_trans (Nat.add_le_add_left hch y) h1
      have hrow1 : 0 + img.width / cw * cw ≤ img.width := by
        simpa using Nat.div_mul_le_self img.width cw
      have hrow2 : img.width < 0 + img.width / cw * cw + cw := by
        have := Nat.div_add_mod' img.width cw
        have := Nat.mod_lt img.width hcw
        omega
      rw [show (m + 1) * (img.width / cw + 1) + 1
            = img.width / cw + 1 + (m * (img.width / cw + 1) + 1) by ring,
        chunk_walk_row img cw ch hd hwcw hhch y hy (img.width / cw) _ 0
          hrow1 hrow2,
        ih (y + ch)
          (by rw [show y + ch + m * ch = y + (m + 1) * ch by ring]; exact h1)
          (by rw [show y + ch + m * ch + ch = y + (m + 1) * ch + ch by ring]
              exact h2),
        WalkResult.consList_ok]
      have hflat : (List.range (m + 1)).flatMap
            (fun ry => (List.range (img.width / cw)).map fun cx =>
              chunk_color img (cx * cw) (y + ry * ch) cw ch)
          = ((List.range (img.width / cw)).map fun cx =>
              chunk_color img (0 + cx * cw) y cw ch)
            ++ (List.range m).flatMap
                 (fun ry => (List.range (img.width / cw)).map fun cx =>
                   chunk_color img (cx * cw) (y + ch + ry * ch) cw ch) := by
        rw [List.range_succ_eq_map, List.flatMap_cons, List.flatMap_map]
        refine congrArg₂ _ ?_ ?_
        · refine List.map_congr_left fun cx _ => ?_
          rw [Nat.zero_mul, Nat.add_zero, Nat.zero_add]
        · refine congrArg _ ?_
          funext ry
          refine List.map_congr_left fun cx _ => ?_
          rw [show y + (ry + 1) * ch = y + ch + ry * ch by ring]
      rw [hflat]

/-- With both chunk dimensions positive, their product's `u32` value
nonzero, and the guard additions `w + cw` and `h + ch` below `2^32`, the
chunk walk terminates with exactly the row-major grid. -/
theorem chunk_walk_complete (img : ImageBuf) (cw ch : Nat) (hcw : 0 < cw)
    (hch : 0 < ch) (hd : cw * ch % u32Mod ≠ 0)
    (hwcw : img.width + cw < u32Mod) (hhch : img.height + ch < u32Mod) :
    compute_main_color_by_chunk img cw ch (chunk_fuel img cw ch)
      = .ok (chunk_grid img cw ch) := by
  have h1 : 0 + img.height / ch * ch ≤ img.height := by
    simpa using Nat.div_mul_le_self img.height ch
  have h2 : img.height < 0 + img.height / ch * ch + ch := by
    have := Nat.div_add_mod' img.height ch
    have := Nat.mod_lt img.height hch
    omega
  have hg := chunk_walk_grid img cw ch hcw hd hwcw hhch (img.height / ch) 0
    h1 h2
  rw [compute_main_color_by_chunk, chunk_fuel, hg]
  simp [chunk_grid]

theorem chunk_grid_length (img : ImageBuf) (cw ch : Nat) :
    (chunk_grid img cw ch).length = img.width / cw * (img.height / ch) := by
  rw [chunk_grid, length_flatMap_const _ _ (img.width / cw) (by intro a; simp),
    List.length_range, Nat.mul_comm]

/-! ### The tile matcher's behavior -/

/-- The first element of `l` attaining the minimal distance to `color`:
everything before it is strictly worse, everything after it no better. -/
def FirstMin (color : Rgb) (l : List ProcessedPicture)
    (r : ProcessedPicture) : Prop :=
  ∃ l₁ l₂, l = l₁ ++ r :: l₂
    ∧ (∀ q ∈ l₁, color_distance r.color_rgb color < color_distance q.color_rgb color)
    ∧ (∀ q ∈ l₂, color_distance r.color_rgb color ≤ color_distance q.color_rgb color)

theorem firstMin_foldl (color : Rgb) :
    ∀ (rest : List ProcessedPicture) (best : ProcessedPicture),
    FirstMin color (best :: rest)
      (rest.foldl
        (fun b p => if color_distance p.color_rgb color
                       < color_distance b.color_rgb color then p else b)
        best) := by
  intro rest
  induction rest with
  | nil => exact fun best => ⟨[], [], rfl, by simp, by simp⟩
  | cons p rest ih =>
      intro best
      rw [List.foldl_cons]
      by_cases hlt : color_distance p.color_rgb color
          < color_distance best.color_rgb color
      · rw [if_pos hlt]
        obtain ⟨l₁, l₂, heq, hbefore, hafter⟩ := ih p
        have hrp : color_distance
            ((rest.foldl (fun b q => if color_distance q.color_rgb color
               < color_distance b.color_rgb color then q else b) p)).color_rgb
              color ≤ color_distance p.color_rgb color := by
          rcases l₁ with _ | ⟨q, l₁'⟩
          · rw [List.nil_append] at heq
            injection heq with h1 _
            rw [← h1]
          · rw [List.cons_append] at heq
            injection heq with h1 _
            exact le_of_lt (h1 ▸ hbefore q (by simp))
        refine ⟨best :: l₁, l₂, by rw [heq, List.cons_append], ?_, hafter⟩
        intro q hq
        rcases List.mem_cons.mp hq with rfl | hq
        · exact lt_of_le_of_lt hrp hlt
        · exact hbefore q hq
      · rw [if_neg hlt]
        push_neg at hlt
        obtain ⟨l₁, l₂, heq, hbefore, hafter⟩ := ih best
        rcases l₁ with _ | ⟨q0, l₁'⟩
        · rw [List.nil_append] at heq
          injection heq with h1 h2
          refine ⟨[], p :: l₂, by rw [List.nil_append, ← h1, ← h2], by simp, ?_⟩
          intro q hq
          rcases List.mem_cons.mp hq with rfl | hq
          · rw [← h1]; exact hlt
          · exact hafter q hq
        · rw [List.cons_append] at heq
          injection heq with h1 h2
          refine ⟨best :: p :: l₁', l₂,
            by conv_lhs => rw [h2]
               rw [List.cons_append, List.cons_append], ?_, hafter⟩
          intro q hq
          rcases List.mem_cons.mp hq with rfl | hq
          · exact h1 ▸ hbefore q0 (by simp)
          · rcases List.mem_cons.mp hq with rfl | hq
            · exact lt_of_lt_of_le (h1 ▸ hbefore q0 (by simp)) hlt
            · exact hbefore q (by simp [hq])

/-- The early return: the scan stops at the first zero-distance entry of the
scanned list, whatever the incoming best pair is. -/
theorem find_closest_aux_zero (color : Rgb) :
    ∀ (l₁ : List ProcessedPicture) (q : ProcessedPicture)
      (l₂ : List ProcessedPicture) (best : ProcessedPicture) (bd : Nat),
    color_distance q.color_rgb color = 0 →
    (∀ x ∈ l₁, color_distance x.color_rgb color ≠ 0) →
    find_closest_aux color (l₁ ++ q :: l₂) best bd = q := by
  intro l₁
  induction l₁ with
  | nil =>
      intro q l₂ best bd hq _
      rw [List.nil_append, find_closest_aux]
      simp [hq]
  | cons x l₁ ih =>
      intro q l₂ best bd hq hne
      rw [List.cons_append, find_closest_aux]
      simp only [if_neg (hne x (by simp))]
      split
      · exact ih q l₂ _ _ hq fun x hx => hne x (by simp [hx])
      · exact ih q l₂ _ _ hq fun x hx => hne x (by simp [hx])

/-- Without zero-distance entries the scan is the strict-improvement fold,
provided the carried distance is the carried best's distance. -/
theorem find_closest_aux_no_zero (color : Rgb) :
    ∀ (l : List ProcessedPicture) (best : ProcessedPicture),
    (∀ q ∈ l, color_distance q.color_rgb color ≠ 0) →
    find_closest_aux color l best (color_distance best.color_rgb color)
      = l.foldl
          (fun b p => if color_distance p.color_rgb color
                         < color_distance b.color_rgb color then p else b)
          best := by
  intro l
  induction l with
  | nil => intro best _; rfl
  | cons p rest ih =>
      intro best hne
      rw [find_closest_aux, List.foldl_cons]
      simp only [if_neg (hne p (by simp))]
      split
      · exact ih p fun q hq => hne q (by simp [hq])
      · exact ih best fun q hq => hne q (by simp [hq])

theorem compute_ratio_coprime {w h : Nat} {r : Nat × Nat}
    (hr : compute_ratio w h = some r) : Nat.gcd r.1 r.2 = 1 := by
  rw [compute_ratio] at hr
  by_cases hg : Nat.gcd w h = 0
  · simp [hg] at hr
  · rw [if_neg hg, Option.some.injEq] at hr
    have := Nat.coprime_div_gcd_div_gcd (Nat.pos_of_ne_zero hg)
    rw [← hr]
    exact this

theorem compute_main_color_isSome (img : ImageBuf)
    (hpos : 0 < img.width * img.height)
    (hlt : img.width * img.height < u32Mod) :
    ∃ c, compute_main_color img = some c := by
  rw [compute_main_color]
  rw [Nat.mod_eq_of_lt hlt]
  rw [if_neg (by omega)]
  exact ⟨_, rfl⟩

/-- A zero-width view has `u32` pixel count zero, so `compute_main_color`
on it is the division-by-zero panic. -/
theorem compute_main_color_zero_width (img : ImageBuf) (x y ch : Nat) :
    compute_main_color (img.view x y 0 ch) = none := by
  simp [compute_main_color, ImageBuf.view]

/-- With chunk width `0` (and at least one row of chunks fitting), the walk
panics on its very first chunk: the inner guard `x + 0 ≤ w` holds, and the
`0 × ch` chunk's pixel count divides by zero inside `compute_main_color`. -/
theorem chunk_walk_zero_width_panic (img : ImageBuf) (ch fuel : Nat)
    (hh : ch ≤ img.height) :
    compute_main_color_by_chunk img 0 ch (fuel + 1) = .panic := by
  rw [compute_main_color_by_chunk, chunk_walk,
    if_pos (le_trans (Nat.mod_le _ _) (show 0 + ch ≤ img.height by omega)),
    if_pos (show (0 + 0) % u32Mod ≤ img.width by simp),
    compute_main_color_zero_width]

/-! ### The claims -/

/-- C7: `color_distance` is symmetric, and zero exactly on equal triples. -/
theorem c7_distance_sym_zero_iff (a b : Rgb)
    (ha : a.r < 256 ∧ a.g < 256 ∧ a.b < 256)
    (hb : b.r < 256 ∧ b.g < 256 ∧ b.b < 256) :
    color_distance a b = color_distance b a
      ∧ (color_distance a b = 0 ↔ a = b) := by
  constructor
  · rw [color_distance, color_distance]
    congr 1
    rw [color_distance_sq, color_distance_sq]
    congr 1
    ring
  · rw [color_distance, Nat.sqrt_eq_zero, color_distance_sq,
      Int.toNat_eq_zero]
    constructor
    · intro hsum
      have s1 := sq_nonneg ((a.r : Int) - b.r)
      have s2 := sq_nonneg ((a.g : Int) - b.g)
      have s3 := sq_nonneg ((a.b : Int) - b.b)
      have e1 : ((a.r : Int) - b.r) ^ 2 = 0 := by linarith
      have e2 : ((a.g : Int) - b.g) ^ 2 = 0 := by linarith
      have e3 : ((a.b : Int) - b.b) ^ 2 = 0 := by linarith
      have f1 : a.r = b.r := by
        have := sub_eq_zero.mp (sq_eq_zero_iff.mp e1)
        exact_mod_cast this
      have f2 : a.g = b.g := by
        have := sub_eq_zero.mp (sq_eq_zero_iff.mp e2)
        exact_mod_cast this
      have f3 : a.b = b.b := by
        have := sub_eq_zero.mp (sq_eq_zero_iff.mp e3)
        exact_mod_cast this
      cases a; cases b; simp_all
    · intro h
      subst h
      simp

/-- C7 witness: instantiation at `(10, 20, 30)` and `(10, 20, 30)` against
`(13, 24, 30)`. -/
theorem c7_witness :
    color_distance ⟨10, 20, 30⟩ ⟨13, 24, 30⟩
        = color_distance ⟨13, 24, 30⟩ ⟨10, 20, 30⟩
      ∧ (color_distance ⟨10, 20, 30⟩ ⟨13, 24, 30⟩ = 0
          ↔ (⟨10, 20, 30⟩ : Rgb) = ⟨13, 24, 30⟩) :=
  c7_distance_sym_zero_iff ⟨10, 20, 30⟩ ⟨13, 24, 30⟩
    (by norm_num) (by norm_num)

/-- C6: ratio reduction is idempotent and fully reduced for positive inputs,
and every catalogue entry the preprocessor emits carries a reduced ratio. -/
theorem c6_ratio_reduced (w h : Nat) (hw : 0 < w) (hh : 0 < h) :
    (∃ r, compute_ratio w h = some r ∧ Nat.gcd r.1 r.2 = 1
       ∧ compute_ratio r.1 r.2 = some r)
  ∧ (∀ files entries, process_pictures files = some entries →
       ∀ p ∈ entries, Nat.gcd p.ratio_width p.ratio_height = 1) := by
  constructor
  · have hg : Nat.gcd w h ≠ 0 := by
      intro h0
      rw [Nat.eq_zero_of_gcd_eq_zero_left h0] at hw
      omega
    have hr : compute_ratio w h = some (w / Nat.gcd w h, h / Nat.gcd w h) := by
      rw [compute_ratio, if_neg hg]
    refine ⟨_, hr, compute_ratio_coprime hr, ?_⟩
    have hco := compute_ratio_coprime hr
    rw [compute_ratio, hco, if_neg one_ne_zero, Nat.div_one, Nat.div_one]
  · intro files
    induction files with
    | nil =>
        intro entries he p hp
        rw [process_pictures, Option.some.injEq] at he
        subst he
        simp at hp
    | cons f rest ih =>
        intro entries he p hp
        rw [process_pictures] at he
        rcases hdec : f.decoded with _ | img
        · rw [hdec] at he
          exact ih entries he p hp
        · rw [hdec] at he
          dsimp only at he
          rcases hrat : compute_ratio img.width img.height with _ | ratio
          · rw [hrat] at he
            cases he
          · rw [hrat] at he
            dsimp only at he
            rcases hsave : f.saveOk with _ | _
            · rw [hsave, if_neg (by simp)] at he
              exact ih entries he p hp
            · rw [hsave, if_pos rfl] at he
              rcases hcol : compute_main_color img with _ | color
              · rw [hcol] at he
                cases he
              · rw [hcol] at he
                dsimp only at he
                rcases hrest : process_pictures rest with _ | l
                · rw [hrest] at he
                  cases he
                · rw [hrest] at he
                  simp at he
                  subst he
                  rcases List.mem_cons.mp hp with rfl | hp
                  · exact compute_ratio_coprime hrat
                  · exact ih l hrest p hp

/-- C6 witness: instantiation at `1920 × 1080` and an empty file list. -/
theorem c6_witness :
    (∃ r, compute_ratio 1920 1080 = some r ∧ Nat.gcd r.1 r.2 = 1
       ∧ compute_ratio r.1 r.2 = some r)
  ∧ (∀ files entries, process_pictures files = some entries →
       ∀ p ∈ entries, Nat.gcd p.ratio_width p.ratio_height = 1) :=
  c6_ratio_reduced 1920 1080 (by norm_num) (by norm_num)

/-- C4: with the filtered catalogue empty, `cmd_create` exits with code 1 and
the diagnostic naming the model ratio; otherwise it proceeds with the
nonempty filtered catalogue, on which the matcher always yields a picture. -/
theorem c4_empty_catalogue (pictures : List ProcessedPicture) (mw mh : Nat)
    (ratio : Nat × Nat) (hr : compute_ratio mw mh = some ratio) :
    (filter_by_ratio pictures ratio = [] →
       cmd_create pictures mw mh
         = .exit 1 ("No processed pictures found with the same ratio ("
                    ++ toString ratio.1 ++ "/" ++ toString ratio.2 ++ ")"))
  ∧ (filter_by_ratio pictures ratio ≠ [] →
       cmd_create pictures mw mh = .proceed (filter_by_ratio pictures ratio)
         ∧ ∀ c, (find_closest_pic_by_color (filter_by_ratio pictures ratio) c).isSome
             = true) := by
  constructor
  · intro hempty
    rw [cmd_create, hr]
    simp only [List.isEmpty_iff, hempty, if_pos]
  · intro hne
    rw [cmd_create, hr]
    simp only [List.isEmpty_iff, if_neg hne]
    refine ⟨by trivial, ?_⟩
    intro c
    rcases h : filter_by_ratio pictures ratio with _ | ⟨p, rest⟩
    · exact absurd h hne
    · rw [find_closest_pic_by_color]
      rfl

/-- C4 witness: a one-entry 16:9 catalogue against a 4:3 model exits with
code 1 and the message naming "4/3"; a 4:3 catalogue proceeds. -/
theorem c4_witness :
    cmd_create [⟨"a", ⟨1, 2, 3⟩, 16, 9⟩] 640 480
      = .exit 1 ("No processed pictures found with the same ratio ("
                 ++ toString (4 : Nat) ++ "/" ++ toString (3 : Nat) ++ ")") :=
  (c4_empty_catalogue [⟨"a", ⟨1, 2, 3⟩, 16, 9⟩] 640 480 (4, 3)
    (by decide)).1 (by decide)

/-- C5 (amended): for positive ratio components below `2^24` (where the
embedded branch test agrees with the source's `f32` comparison), the larger
output dimension always equals `size` and the smaller never exceeds it; the
claimed exact formulas additionally need the `size * ratio` products to stay
below `2^32`, where the source's `u32` multiplications do not wrap. -/
theorem c5_ratio_to_dim (a1 b1 size : Nat) (ha : 0 < a1) (hb : 0 < b1)
    (ha24 : a1 < 2 ^ 24) (hb24 : b1 < 2 ^ 24) :
    (max (ratio_to_dim (a1, b1) size).1 (ratio_to_dim (a1, b1) size).2 = size
      ∧ min (ratio_to_dim (a1, b1) size).1 (ratio_to_dim (a1, b1) size).2 ≤ size)
  ∧ (size * a1 < u32Mod → size * b1 < u32Mod →
      ratio_to_dim (a1, b1) size
        = if b1 < a1 then (size, size * b1 / a1) else (size * a1 / b1, size)) := by
  by_cases hlt : b1 < a1
  · have hdim : ratio_to_dim (a1, b1) size = (size, size * b1 % u32Mod / a1) := by
      rw [ratio_to_dim, if_pos hlt]
    have hle : size * b1 % u32Mod / a1 ≤ size := by
      calc size * b1 % u32Mod / a1
          ≤ size * b1 / a1 := Nat.div_le_div_right (Nat.mod_le _ _)
        _ ≤ size * a1 / a1 :=
            Nat.div_le_div_right (Nat.mul_le_mul_left size (le_of_lt hlt))
        _ = size := Nat.mul_div_cancel _ ha
    refine ⟨⟨?_, ?_⟩, ?_⟩
    · rw [hdim]; exact Nat.max_eq_left hle
    · rw [hdim]; exact Nat.min_le_left _ _
    · intro _ h2
      rw [hdim, if_pos hlt, Nat.mod_eq_of_lt h2]
  · have hge : a1 ≤ b1 := Nat.le_of_not_lt hlt
    have hdim : ratio_to_dim (a1, b1) size = (size * a1 % u32Mod / b1, size) := by
      rw [ratio_to_dim, if_neg hlt]
    have hle : size * a1 % u32Mod / b1 ≤ size := by
      calc size * a1 % u32Mod / b1
          ≤ size * a1 / b1 := Nat.div_le_div_right (Nat.mod_le _ _)
        _ ≤ size * b1 / b1 :=
            Nat.div_le_div_right (Nat.mul_le_mul_left size hge)
        _ = size := Nat.mul_div_cancel _ hb
    refine ⟨⟨?_, ?_⟩, ?_⟩
    · rw [hdim]; exact Nat.max_eq_right hle
    · rw [hdim]; exact Nat.min_le_right _ _
    · intro h1 _
      rw [hdim, if_neg hlt, Nat.mod_eq_of_lt h1]

/-- C5 witness: the 4:3 ratio at size 8 gives `(8, 6)`, with the larger
dimension equal to 8. -/
theorem c5_witness :
    ratio_to_dim (4, 3) 8 = (8, 6)
      ∧ max (ratio_to_dim (4, 3) 8).1 (ratio_to_dim (4, 3) 8).2 = 8 := by
  have h := c5_ratio_to_dim 4 3 8 (by norm_num) (by norm_num) (by norm_num)
    (by norm_num)
  have h2 := h.2 (by norm_num [u32Mod]) (by norm_num [u32Mod])
  refine ⟨?_, h.1.1⟩
  rw [h2, if_pos (by norm_num)]

/-- C5 counterexample: for the reduced ratio `131073 : 65537` at size
`65536` the source's `u32` product `65536 * 65537` wraps to `65536`, so the
computed height is `0`, not the claimed `size * ratio_height / ratio_width
= 32768`. -/
theorem c5_counterexample :
    ratio_to_dim (131073, 65537) 65536 = (65536, 0)
  ∧ 65536 * 65537 / 131073 = 32768
  ∧ Nat.gcd 131073 65537 = 1 := by
  refine ⟨?_, by norm_num, by decide⟩
  rw [ratio_to_dim, if_pos (by norm_num)]
  norm_num [u32Mod]

/-- C2 (amended): with positive chunk dimensions whose product stays below
`2^32` (no `u32` wrap in the pixel count of a chunk) and whose guard sums
`w + cw` and `h + ch` also stay below `2^32` (no `u32` wrap — and no checked
overflow panic — in the loop-counter additions), the walk terminates and
emits exactly the row-major `floor(W/cw) × floor(H/ch)` grid of chunk
colors, each chunk's region lying inside the image. -/
theorem c2_chunk_partition (img : ImageBuf) (cw ch : Nat) (hcw : 0 < cw)
    (hch : 0 < ch) (hwrap : cw * ch < u32Mod)
    (hwcw : img.width + cw < u32Mod) (hhch : img.height + ch < u32Mod) :
    compute_main_color_by_chunk img cw ch (chunk_fuel img cw ch)
      = .ok (chunk_grid img cw ch)
  ∧ (chunk_grid img cw ch).length = img.width / cw * (img.height / ch)
  ∧ ∀ ry < img.height / ch, ∀ cx < img.width / cw,
      cx * cw + cw ≤ img.width ∧ ry * ch + ch ≤ img.height := by
  have hd : cw * ch % u32Mod ≠ 0 := by
    rw [Nat.mod_eq_of_lt hwrap]
    exact Nat.pos_iff_ne_zero.mp (Nat.mul_pos hcw hch)
  refine ⟨chunk_walk_complete img cw ch hcw hch hd hwcw hhch,
    chunk_grid_length img cw ch, ?_⟩
  intro ry hry cx hcx
  constructor
  · calc cx * cw + cw = (cx + 1) * cw := by ring
      _ ≤ img.width / cw * cw := Nat.mul_le_mul_right cw hcx
      _ ≤ img.width := Nat.div_mul_le_self _ _
  · calc ry * ch + ch = (ry + 1) * ch := by ring
      _ ≤ img.height / ch * ch := Nat.mul_le_mul_right ch hry
      _ ≤ img.height := Nat.div_mul_le_self _ _

/-- C2 witness: a `2 × 2` image in `1 × 1` chunks yields the four pixel
colors in row-major order. -/
theorem c2_witness :
    compute_main_color_by_chunk (⟨2, 2, fun x y => ⟨x, y, 3, 0⟩⟩ : ImageBuf)
        1 1 (chunk_fuel ⟨2, 2, fun x y => ⟨x, y, 3, 0⟩⟩ 1 1)
      = .ok (chunk_grid ⟨2, 2, fun x y => ⟨x, y, 3, 0⟩⟩ 1 1)
  ∧ (chunk_grid (⟨2, 2, fun x y => ⟨x, y, 3, 0⟩⟩ : ImageBuf) 1 1).length = 4
  ∧ chunk_grid (⟨2, 2, fun x y => ⟨x, y, 3, 0⟩⟩ : ImageBuf) 1 1
      = [⟨0, 0, 3⟩, ⟨1, 0, 3⟩, ⟨0, 1, 3⟩, ⟨1, 1, 3⟩] := by
  have h := c2_chunk_partition ⟨2, 2, fun x y => ⟨x, y, 3, 0⟩⟩ 1 1
    (by norm_num) (by norm_num) (by norm_num [u32Mod]) (by norm_num [u32Mod])
    (by norm_num [u32Mod])
  exact ⟨h.1, by decide, by decide⟩

/-- C2 counterexample: a `65536 × 65536` chunk on a `65536 × 65536` image
has `u32` pixel count `65536 * 65536 ≡ 0 (mod 2^32)`, so instead of emitting
the predicted `1 * 1` chunk colors the walk panics on the division by the
wrapped pixel count. -/
theorem c2_counterexample :
    compute_main_color_by_chunk (⟨65536, 65536, fun _ _ => ⟨0, 0, 0, 0⟩⟩ : ImageBuf)
        65536 65536
        (chunk_fuel ⟨65536, 65536, fun _ _ => ⟨0, 0, 0, 0⟩⟩ 65536 65536)
      = .panic
  ∧ (65536 : Nat) / 65536 * ((65536 : Nat) / 65536) = 1 := by decide

theorem sum_map_range_const (n v : Nat) :
    ((List.range n).map fun _ => v).sum = n * v := by
  induction n with
  | zero => simp
  | succ n ih =>
      rw [List.range_succ, List.map_append, List.sum_append, ih]
      simp [Nat.succ_mul]

/-- Channel sums over a constant one-row image. -/
theorem pixels_const_sum (n : Nat) (c : Rgba) (f : Rgba → Nat) :
    ((pixelsList ⟨n, 1, fun _ _ => c⟩).map f).sum = n * f c := by
  have : pixelsList ⟨n, 1, fun _ _ => c⟩
      = (List.range n).map fun _ => c := by
    rw [pixelsList]
    show (List.range 1).flatMap _ = _
    rw [(by decide : List.range 1 = [0]), List.flatMap_cons, List.flatMap_nil,
      List.append_nil]
  rw [this, List.map_map]
  exact sum_map_range_const n (f c)

/-- C3 (amended): on a region with a positive pixel count whose channel sums
stay below `2^32` (no wrap of the `u32` accumulators), `compute_main_color`
returns exactly the per-channel truncated average. -/
theorem c3_average (img : ImageBuf) (hpos : 0 < img.width * img.height)
    (hwrap : 255 * (img.width * img.height) < u32Mod)
    (hb : ∀ p ∈ pixelsList img, p.r ≤ 255 ∧ p.g ≤ 255 ∧ p.b ≤ 255) :
    compute_main_color img
      = some ⟨((pixelsList img).map Rgba.r).sum / (img.width * img.height),
              ((pixelsList img).map Rgba.g).sum / (img.width * img.height),
              ((pixelsList img).map Rgba.b).sum / (img.width * img.height)⟩ :=
  compute_main_color_eq img hpos hwrap hb

/-- C3 witness: a two-pixel image averages `(10,20,30)` and `(20,40,60)` to
`(15,30,45)`. -/
theorem c3_witness :
    compute_main_color
        (⟨2, 1, fun x _ => if x = 0 then ⟨10, 20, 30, 0⟩ else ⟨20, 40, 60, 0⟩⟩ :
          ImageBuf)
      = some ⟨15, 30, 45⟩ := by
  have h := c3_average
    ⟨2, 1, fun x _ => if x = 0 then ⟨10, 20, 30, 0⟩ else ⟨20, 40, 60, 0⟩⟩
    (by norm_num) (by norm_num [u32Mod]) (by decide)
  rw [h]
  decide

/-- C3 counterexample: a constant-255 row of `16843010` pixels makes the
`u32` channel sum wrap (`255 * 16843010 ≡ 254 (mod 2^32)`), so the function
returns `(0,0,0)` although the claimed truncated average is `255`. -/
theorem c3_counterexample :
    compute_main_color (⟨16843010, 1, fun _ _ => ⟨255, 255, 255, 255⟩⟩ : ImageBuf)
      = some ⟨0, 0, 0⟩
  ∧ ((pixelsList ⟨16843010, 1, fun _ _ => ⟨255, 255, 255, 255⟩⟩).map Rgba.r).sum
      / (16843010 * 1) = 255 := by
  constructor
  · rw [compute_main_color_def _
      (show (16843010 * 1 % u32Mod : Nat) ≠ 0 by norm_num [u32Mod])]
    rw [wrapSum_eq, wrapSum_eq, wrapSum_eq,
      pixels_const_sum 16843010 ⟨255, 255, 255, 255⟩ fun p => p.r,
      pixels_const_sum 16843010 ⟨255, 255, 255, 255⟩ fun p => p.g,
      pixels_const_sum 16843010 ⟨255, 255, 255, 255⟩ fun p => p.b]
    norm_num [u32Mod]
  · rw [pixels_const_sum 16843010 ⟨255, 255, 255, 255⟩ Rgba.r]
    norm_num

/-- C1 (amended): the matcher is a pure function (hence deterministic).  If
some entry of the tail (index ≥ 1) matches the query exactly, the first such
tail entry is returned — even when the head entry also matches exactly.
Otherwise the first entry attaining the minimal distance is returned (ties
resolve to the earliest in catalogue order), and in particular a unique
exact match at the head is returned. -/
theorem c1_matcher (p0 : ProcessedPicture) (rest : List ProcessedPicture)
    (c : Rgb) :
    (∀ l₁ q l₂, rest = l₁ ++ q :: l₂ → color_distance q.color_rgb c = 0 →
       (∀ x ∈ l₁, color_distance x.color_rgb c ≠ 0) →
       find_closest_pic_by_color (p0 :: rest) c = some q)
  ∧ ((∀ q ∈ rest, color_distance q.color_rgb c ≠ 0) →
       ∃ r, find_closest_pic_by_color (p0 :: rest) c = some r
         ∧ FirstMin c (p0 :: rest) r
         ∧ (color_distance p0.color_rgb c = 0 → r = p0)) := by
  constructor
  · intro l₁ q l₂ hsplit hq hne
    rw [find_closest_pic_by_color, hsplit,
      find_closest_aux_zero c l₁ q l₂ _ _ hq hne]
  · intro hne
    have hfold := find_closest_aux_no_zero c rest p0 hne
    have hfm := firstMin_foldl c rest p0
    refine ⟨_, by rw [find_closest_pic_by_color, hfold], hfm, ?_⟩
    intro hp0
    obtain ⟨l₁, l₂, heq, hbefore, _⟩ := hfm
    rcases l₁ with _ | ⟨x, l₁'⟩
    · rw [List.nil_append] at heq
      injection heq with h1 _
      exact h1.symm
    · rw [List.cons_append] at heq
      injection heq with h1 _
      have hcontra := hbefore x (by simp)
      rw [← h1, hp0] at hcontra
      omega

/-- C1 witness: with an inexact head and an exact tail entry the first exact
tail entry wins; with a unique exact head and an inexact tail the head
wins and ties resolve first-in-order. -/
theorem c1_witness :
    find_closest_pic_by_color
        [⟨"a", ⟨10, 0, 0⟩, 1, 1⟩, ⟨"b", ⟨0, 0, 0⟩, 1, 1⟩, ⟨"c", ⟨0, 0, 0⟩, 1, 1⟩]
        ⟨0, 0, 0⟩
      = some ⟨"b", ⟨0, 0, 0⟩, 1, 1⟩
  ∧ (∃ r, find_closest_pic_by_color
          [⟨"d", ⟨0, 0, 0⟩, 1, 1⟩, ⟨"e", ⟨3, 0, 0⟩, 1, 1⟩] ⟨0, 0, 0⟩ = some r
        ∧ FirstMin ⟨0, 0, 0⟩
            [⟨"d", ⟨0, 0, 0⟩, 1, 1⟩, ⟨"e", ⟨3, 0, 0⟩, 1, 1⟩] r
        ∧ (color_distance (⟨0, 0, 0⟩ : Rgb) ⟨0, 0, 0⟩ = 0
            → r = ⟨"d", ⟨0, 0, 0⟩, 1, 1⟩)) := by
  constructor
  · exact (c1_matcher ⟨"a", ⟨10, 0, 0⟩, 1, 1⟩
        [⟨"b", ⟨0, 0, 0⟩, 1, 1⟩, ⟨"c", ⟨0, 0, 0⟩, 1, 1⟩] ⟨0, 0, 0⟩).1
      [] ⟨"b", ⟨0, 0, 0⟩, 1, 1⟩ [⟨"c", ⟨0, 0, 0⟩, 1, 1⟩] rfl (by decide)
      (by simp)
  · exact (c1_matcher ⟨"d", ⟨0, 0, 0⟩, 1, 1⟩
        [⟨"e", ⟨3, 0, 0⟩, 1, 1⟩] ⟨0, 0, 0⟩).2
      (by
        intro q hq
        simp only [List.mem_singleton] at hq
        subst hq
        rw [color_distance_eq_of 3 (by decide) (by decide)]
        omega)

/-- C1 counterexample: when the head entry and a tail entry both match the
query exactly, the tail entry is returned, not the first exact match in
catalogue order. -/
theorem c1_counterexample :
    find_closest_pic_by_color
        [⟨"a", ⟨0, 0, 0⟩, 1, 1⟩, ⟨"b", ⟨0, 0, 0⟩, 1, 1⟩] ⟨0, 0, 0⟩
      = some ⟨"b", ⟨0, 0, 0⟩, 1, 1⟩
  ∧ (⟨"b", ⟨0, 0, 0⟩, 1, 1⟩ : ProcessedPicture) ≠ ⟨"a", ⟨0, 0, 0⟩, 1, 1⟩ := by
  decide

/-- C8: with every decoded image of sane positive size, preprocessing never
aborts the batch — a decode failure or a failed thumbnail save merely skips
the file — and the catalogue holds exactly one entry per successfully
processed file, in the listed order. -/
theorem c8_skip_and_continue (files : List FileEntry)
    (hok : ∀ f ∈ files, ∀ img, f.decoded = some img →
       0 < img.width * img.height ∧ img.width * img.height < u32Mod) :
    process_pictures files = some (files.filterMap catalogue_entry)
  ∧ (files.filterMap catalogue_entry).length
      = (files.filter fun f => f.decoded.isSome && f.saveOk).length := by
  induction files with
  | nil => exact ⟨rfl, rfl⟩
  | cons f rest ih =>
      obtain ⟨hp, hl⟩ := ih fun f' hf' => hok f' (by simp [hf'])
      rcases hdec : f.decoded with _ | img
      · have hcat : catalogue_entry f = none := by
          rw [catalogue_entry, hdec]
        have heq : (f :: rest).filterMap catalogue_entry
            = rest.filterMap catalogue_entry := by
          rw [List.filterMap_cons, hcat]
        refine ⟨?_, ?_⟩
        · rw [process_pictures, hdec, heq]
          exact hp
        · rw [heq, hl, List.filter_cons, hdec]
          simp
      · obtain ⟨hapos, halt⟩ := hok f (by simp) img hdec
        have hw0 : img.width ≠ 0 := by
          intro h0
          rw [h0, Nat.zero_mul] at hapos
          omega
        have hg : Nat.gcd img.width img.height ≠ 0 := by
          intro h0
          exact hw0 (Nat.eq_zero_of_gcd_eq_zero_left h0)
        have hrat : compute_ratio img.width img.height
            = some (img.width / Nat.gcd img.width img.height,
                    img.height / Nat.gcd img.width img.height) := by
          rw [compute_ratio, if_neg hg]
        obtain ⟨color, hcol⟩ := compute_main_color_isSome img hapos halt
        rcases hsave : f.saveOk with _ | _
        · have hcat : catalogue_entry f = none := by
            rw [catalogue_entry, hdec]
            simp [hsave]
          have heq : (f :: rest).filterMap catalogue_entry
              = rest.filterMap catalogue_entry := by
            rw [List.filterMap_cons, hcat]
          refine ⟨?_, ?_⟩
          · rw [process_pictures, hdec]
            dsimp only
            rw [hrat]
            dsimp only
            rw [hsave, if_neg (by simp), heq]
            exact hp
          · rw [heq, hl, List.filter_cons, hdec, hsave]
            simp
        · have hcat : catalogue_entry f
              = some ⟨f.name, color, img.width / Nat.gcd img.width img.height,
                      img.height / Nat.gcd img.width img.height⟩ := by
            rw [catalogue_entry, hdec]
            simp only [hsave, if_pos]
            rw [hrat, hcol]
          have heq : (f :: rest).filterMap catalogue_entry
              = ⟨f.name, color, img.width / Nat.gcd img.width img.height,
                 img.height / Nat.gcd img.width img.height⟩
                :: rest.filterMap catalogue_entry := by
            rw [List.filterMap_cons, hcat]
          refine ⟨?_, ?_⟩
          · rw [process_pictures, hdec]
            dsimp only
            rw [hrat]
            dsimp only
            rw [hsave, if_pos rfl, hcol]
            dsimp only
            rw [hp, heq]
            rfl
          · rw [heq, List.filter_cons, hdec, hsave]
            simp [hl]

/-- C8 witness: a valid file, an undecodable file, and a file whose
thumbnail save fails yield exactly one catalogue entry, for the valid
file. -/
theorem c8_witness :
    process_pictures
        [⟨"good", some ⟨1, 1, fun _ _ => ⟨1, 2, 3, 0⟩⟩, true⟩,
         ⟨"bad-decode", none, true⟩,
         ⟨"bad-save", some ⟨1, 1, fun _ _ => ⟨4, 5, 6, 0⟩⟩, false⟩]
      = some ([⟨"good", some ⟨1, 1, fun _ _ => ⟨1, 2, 3, 0⟩⟩, true⟩,
               ⟨"bad-decode", none, true⟩,
               ⟨"bad-save", some ⟨1, 1, fun _ _ => ⟨4, 5, 6, 0⟩⟩, false⟩].filterMap
          catalogue_entry)
  ∧ ([⟨"good", some ⟨1, 1, fun _ _ => ⟨1, 2, 3, 0⟩⟩, true⟩,
      ⟨"bad-decode", none, true⟩,
      ⟨"bad-save", some ⟨1, 1, fun _ _ => ⟨4, 5, 6, 0⟩⟩, false⟩].filterMap
        catalogue_entry).length = 1 := by
  have h := c8_skip_and_continue
    [⟨"good", some ⟨1, 1, fun _ _ => ⟨1, 2, 3, 0⟩⟩, true⟩,
     ⟨"bad-decode", none, true⟩,
     ⟨"bad-save", some ⟨1, 1, fun _ _ => ⟨4, 5, 6, 0⟩⟩, false⟩]
    (by
      intro f hf img hdec
      simp only [List.mem_cons, List.not_mem_nil, or_false] at hf
      rcases hf with rfl | rfl | rfl
      · cases hdec
        norm_num [u32Mod]
      · cases hdec
      · cases hdec
        norm_num [u32Mod])
  refine ⟨h.1, ?_⟩
  rw [h.2]
  rfl

/-- C9 (amended): `compute_ratio (0, n)` for `n > 0` treats `gcd 0 n` as `n`
and divides safely; but `compute_ratio (0, 0)` is a division by zero, and
the pipeline never rejects or special-cases zero-area regions:
`compute_main_color` on a zero-width view is a division by zero, and the
mosaic build reaches one whenever `ratio_to_dim` truncates the chunk width
to zero. -/
theorem c9_zero_division (n : Nat) (hn : 0 < n) :
    (Nat.gcd 0 n = n ∧ compute_ratio 0 n = some (0, 1))
  ∧ compute_ratio 0 0 = none
  ∧ (∀ img x y ch, compute_main_color (ImageBuf.view img x y 0 ch) = none)
  ∧ (∀ img ch fuel, ch ≤ img.height →
       compute_main_color_by_chunk img 0 ch (fuel + 1) = .panic) := by
  refine ⟨⟨Nat.gcd_zero_left n, ?_⟩, rfl,
    fun img x y ch => compute_main_color_zero_width img x y ch,
    fun img ch fuel hh => chunk_walk_zero_width_panic img ch fuel hh⟩
  rw [compute_ratio]
  simp only [Nat.gcd_zero_left]
  rw [if_neg (by omega), Nat.zero_div, Nat.div_self hn]

/-- C9 witness: instantiation at `n = 9`, a zero-width chunk view of a
`1 × 9` image, and the panicking walk on it. -/
theorem c9_witness :
    (Nat.gcd 0 9 = 9 ∧ compute_ratio 0 9 = some (0, 1))
  ∧ compute_main_color
      (ImageBuf.view ⟨1, 9, fun _ _ => ⟨0, 0, 0, 0⟩⟩ 0 0 0 8) = none
  ∧ compute_main_color_by_chunk ⟨1, 9, fun _ _ => ⟨0, 0, 0, 0⟩⟩ 0 8 3
      = .panic := by
  have h := c9_zero_division 9 (by norm_num)
  exact ⟨h.1, h.2.2.1 ⟨1, 9, fun _ _ => ⟨0, 0, 0, 0⟩⟩ 0 0 8,
    h.2.2.2 ⟨1, 9, fun _ _ => ⟨0, 0, 0, 0⟩⟩ 8 2 (by norm_num)⟩

/-- C9 counterexample: the claim's safety assertion fails — `compute_ratio`
divides by zero at `(0, 0)`, and the mosaic pipeline reaches a zero-area
region in `compute_main_color` (the very division by pixel count the claim
says is protected): on a `1 × 9` model the chunk dimensions are `(0, 8)` and
the chunk walk hits the division by zero immediately. -/
theorem c9_counterexample :
    compute_ratio 0 0 = none
  ∧ ratio_to_dim (1, 9) 8 = (0, 8)
  ∧ compute_main_color
      (ImageBuf.view ⟨9, 81, fun _ _ => ⟨2, 2, 2, 2⟩⟩ 0 0 0 8) = none
  ∧ compute_main_color_by_chunk ⟨9, 81, fun _ _ => ⟨2, 2, 2, 2⟩⟩ 0 8 3
      = .panic := by decide

/-- C10 (corrected): `ratio_to_dim (1, 9) 8` does truncate the chunk width
to `0`, and with positive chunk dimensions whose products and guard sums
stay inside the `u32` range the walk does terminate with the full grid; but
under the zero chunk width the walk PANICS on its first chunk (division by
zero on the `0 × 8` region) rather than looping forever, and the
canvas-size division of `create_mosaic` — itself a division by zero — is
never reached. -/
theorem c10_degenerate_ratio :
    ratio_to_dim (1, 9) 8 = (0, 8)
  ∧ (∀ img cw ch, 0 < cw → 0 < ch → cw * ch < u32Mod →
      img.width + cw < u32Mod → img.height + ch < u32Mod →
      compute_main_color_by_chunk img cw ch (chunk_fuel img cw ch)
        = .ok (chunk_grid img cw ch))
  ∧ (∀ img fuel, 8 ≤ img.height →
      compute_main_color_by_chunk img 0 8 (fuel + 1) = .panic)
  ∧ (∀ mw mh, mosaic_canvas_dims mw mh (ratio_to_dim (1, 9) 8)
      (ratio_to_dim (1, 9) 64) = none) := by
  refine ⟨by decide, ?_, ?_, ?_⟩
  · intro img cw ch hcw hch hwrap hwcw hhch
    refine chunk_walk_complete img cw ch hcw hch ?_ hwcw hhch
    rw [Nat.mod_eq_of_lt hwrap]
    exact Nat.pos_iff_ne_zero.mp (Nat.mul_pos hcw hch)
  · intro img fuel hh
    exact chunk_walk_zero_width_panic img 8 fuel hh
  · intro mw mh
    rw [show ratio_to_dim (1, 9) 8 = (0, 8) from by decide]
    simp [mosaic_canvas_dims]

/-- C10 witness: a `16 × 16` image in `8 × 8` chunks completes; a `2 × 18`
image with the degenerate `(0, 8)` chunk dimensions panics; the canvas
computation for the 1:9 ratio is a division by zero. -/
theorem c10_witness :
    ratio_to_dim (1, 9) 8 = (0, 8)
  ∧ compute_main_color_by_chunk (⟨16, 16, fun _ _ => ⟨8, 8, 8, 8⟩⟩ : ImageBuf)
        8 8 (chunk_fuel ⟨16, 16, fun _ _ => ⟨8, 8, 8, 8⟩⟩ 8 8)
      = .ok (chunk_grid ⟨16, 16, fun _ _ => ⟨8, 8, 8, 8⟩⟩ 8 8)
  ∧ compute_main_color_by_chunk ⟨2, 18, fun _ _ => ⟨1, 2, 3, 4⟩⟩ 0 8 4
      = .panic
  ∧ mosaic_canvas_dims 2 18 (ratio_to_dim (1, 9) 8) (ratio_to_dim (1, 9) 64)
      = none := by
  have h := c10_degenerate_ratio
  exact ⟨h.1,
    h.2.1 ⟨16, 16, fun _ _ => ⟨8, 8, 8, 8⟩⟩ 8 8 (by norm_num) (by norm_num)
      (by norm_num [u32Mod]) (by norm_num [u32Mod]) (by norm_num [u32Mod]),
    h.2.2.1 ⟨2, 18, fun _ _ => ⟨1, 2, 3, 4⟩⟩ 3 (by norm_num),
    h.2.2.2 2 18⟩

/-- C10 counterexample: on a `1 × 9` model with the degenerate `(0, 8)`
chunk dimensions the walk is settled after three steps — it panics; it is
not an unterminated (fuel-exhausted) loop as the claim asserts. -/
theorem c10_counterexample :
    compute_main_color_by_chunk ⟨1, 9, fun _ _ => ⟨7, 7, 7, 7⟩⟩ 0 8 3 = .panic
  ∧ WalkResult.panic ≠ WalkResult.fuelOut := by decide
